import Mathlib

set_option maxRecDepth 1000000

/-!
Verification of the release-candidate discovery core of `create-app-release`
(`src/index.js`): the semantic-version title matcher used by
`getLatestReleasePR`, the PR-number extractor
`extractPRNumbersFromDescription`, and the candidate filter inside
`fetchPullRequests`.

Strings are modelled as `List Char`; the JavaScript regular expressions are
embedded by their match semantics (existence of a match for `test`, the
global left-to-right scan for `match` with the `g` flag).
-/

namespace CreateAppRelease

/-! ### Character classes -/

/-- JavaScript `\w` (word character) as used by the `\b` assertion:
`[A-Za-z0-9_]`. -/
def isWordChar (c : Char) : Bool :=
  c.isAlpha || c.isDigit || c = '_'

/-- JavaScript `\s` (whitespace class): space, tab, line feed, carriage
return, vertical tab, form feed, no-break space, byte-order mark. -/
def isSpaceJS (c : Char) : Bool :=
  c = ' ' || c = '\t' || c = '\n' || c = '\r' || c = '\x0b' ||
  c = '\x0c' || c = '\u00A0' || c = '\uFEFF'

/-- Characters allowed in pre-release / build-metadata identifiers:
`[0-9a-zA-Z-]`. -/
def isAlnumHyphen (c : Char) : Bool :=
  c.isAlpha || c.isDigit || c = '-'

/-! ### Generic list splitting -/

/-- All decompositions of a list into two adjacent parts. -/
def splits : List Char → List (List Char × List Char)
  | [] => [([], [])]
  | c :: cs => ([], c :: cs) :: (splits cs).map (fun p => (c :: p.1, p.2))

theorem mem_splits_iff (l p q : List Char) :
    (p, q) ∈ splits l ↔ l = p ++ q := by
  induction l generalizing p q with
  | nil =>
    simp only [splits, List.mem_singleton, Prod.mk.injEq]
    constructor
    · rintro ⟨rfl, rfl⟩; rfl
    · intro h
      rcases p with _ | ⟨c, p⟩
      · simpa using h.symm
      · simp at h
  | cons c cs ih =>
    simp only [splits, List.mem_cons, List.mem_map, Prod.mk.injEq]
    constructor
    · rintro (⟨rfl, rfl⟩ | ⟨⟨a, b⟩, hm, rfl, rfl⟩)
      · rfl
      · simp [(ih a b).mp hm]
    · intro h
      rcases p with _ | ⟨d, p⟩
      · exact Or.inl ⟨rfl, h.symm⟩
      · right
        simp only [List.cons_append, List.cons.injEq] at h
        exact ⟨(p, q), (ih p q).mpr h.2, by simp [h.1]⟩

theorem splits_any_iff (l : List Char) (f : List Char × List Char → Bool) :
    (splits l).any f = true ↔ ∃ p q, l = p ++ q ∧ f (p, q) = true := by
  rw [List.any_eq_true]
  constructor
  · rintro ⟨⟨p, q⟩, hm, hf⟩
    exact ⟨p, q, (mem_splits_iff l p q).mp hm, hf⟩
  · rintro ⟨p, q, hl, hf⟩
    exact ⟨(p, q), (mem_splits_iff l p q).mpr hl, hf⟩

/-! ### The semantic-version pattern of `getLatestReleasePR`

The source regex (line 145 of `src/index.js`):

  `\b(0|[1-9]\d*)\.(0|[1-9]\d*)\.(0|[1-9]\d*)`
  `(?:-((?:0|[1-9]\d*|\d*[a-zA-Z-][0-9a-zA-Z-]*)`
  `(?:\.(?:0|[1-9]\d*|\d*[a-zA-Z-][0-9a-zA-Z-]*))*))?`
  `(?:\+([0-9a-zA-Z-]+(?:\.[0-9a-zA-Z-]+)*))?\b`
-/

/-- `0|[1-9]\d*`: a numeric component with no leading zero. -/
def isNumComp (cs : List Char) : Bool :=
  match cs with
  | [] => false
  | c :: rest =>
    (c = '0' && rest.isEmpty) ||
    (c.isDigit && c ≠ '0' && rest.all Char.isDigit)

/-- `0|[1-9]\d*|\d*[a-zA-Z-][0-9a-zA-Z-]*`: one pre-release identifier.
The second alternative is exactly the nonempty strings over `[0-9a-zA-Z-]`
containing at least one non-digit (the first non-digit is then the
`[a-zA-Z-]` of the pattern). -/
def isPreReleaseId (cs : List Char) : Bool :=
  !cs.isEmpty && cs.all isAlnumHyphen &&
    (cs.any (fun c => !c.isDigit) || isNumComp cs)

/-- `[0-9a-zA-Z-]+`: one build-metadata identifier. -/
def isBuildId (cs : List Char) : Bool :=
  !cs.isEmpty && cs.all isAlnumHyphen

/-- Split at every `'.'`. Identifiers never contain `'.'`, so the
dot-separated-list patterns `x(\.x)*` hold exactly when every part of this
split matches `x`. -/
def splitOnDot : List Char → List (List Char)
  | [] => [[]]
  | c :: cs =>
    match splitOnDot cs with
    | p :: ps => if c = '.' then [] :: p :: ps else (c :: p) :: ps
    | [] => [[c]]

/-- Pre-release part: `id(\.id)*`. -/
def isPreRelease (cs : List Char) : Bool :=
  (splitOnDot cs).all isPreReleaseId

/-- Build-metadata part: `id(\.id)*`. -/
def isBuild (cs : List Char) : Bool :=
  (splitOnDot cs).all isBuildId

/-- Optional `\+build` after the pre-release part. -/
def isOptBuild : List Char → Bool
  | [] => true
  | '+' :: rest => isBuild rest
  | _ => false

/-- The optional `-prerelease` and `+build` suffixes after the third
numeric component. -/
def isVersionSuffixes : List Char → Bool
  | [] => true
  | '-' :: rest =>
    (splits rest).any fun p => isPreRelease p.1 && isOptBuild p.2
  | '+' :: rest => isBuild rest
  | _ => false

/-- The core of the semver pattern, without the `\b` assertions:
`(0|[1-9]\d*)\.(0|[1-9]\d*)\.(0|[1-9]\d*)(?:-pre)?(?:\+build)?`. -/
def semverCore (m : List Char) : Bool :=
  (splits m).any fun p1 =>
    isNumComp p1.1 &&
      (match p1.2 with
       | '.' :: r1 =>
         (splits r1).any fun p2 =>
           isNumComp p2.1 &&
             (match p2.2 with
              | '.' :: r2 =>
                (splits r2).any fun p3 =>
                  isNumComp p3.1 && isVersionSuffixes p3.2
              | _ => false)
       | _ => false)

/-- `\b` between two (optional) adjacent characters: word-ness differs on
the two sides; an absent character counts as non-word. -/
def boundaryOk (a b : Option Char) : Bool :=
  (match a with | none => false | some c => isWordChar c) !=
  (match b with | none => false | some c => isWordChar c)

/-- All decompositions of a list into three adjacent parts. -/
def triples (s : List Char) : List (List Char × List Char × List Char) :=
  (splits s).flatMap fun pq => (splits pq.2).map fun mr => (pq.1, mr.1, mr.2)

/-- `semverPattern.test` on a list of characters: some decomposition
`p ++ m ++ q` has `m` matching the core pattern with `\b` holding on both
sides of `m`. -/
def semverTestL (s : List Char) : Bool :=
  (triples s).any fun t =>
    semverCore t.2.1 && boundaryOk t.1.getLast? t.2.1.head? &&
      boundaryOk t.2.1.getLast? t.2.2.head?

/-- `semverPattern.test(title)` (line 147 of `src/index.js`). -/
def semverTest (s : String) : Bool :=
  semverTestL s.toList

/-! ### The PR-number extractor `extractPRNumbersFromDescription`

Source regex (line 168): `/#\d+|\(#\d+\)|(?<=PR:?\s*)\d+/g`, scanned left
to right over the description; each match is stripped of non-digits and
parsed with `parseInt`, and the results are collected into a `Set`. -/

/-- Split a string into its maximal leading digit run and the rest
(the semantics of a greedy `\d+` starting at the head). -/
def digitRunSplit : List Char → List Char × List Char
  | [] => ([], [])
  | c :: cs =>
    if c.isDigit then
      let r := digitRunSplit cs
      (c :: r.1, r.2)
    else ([], c :: cs)

theorem digitRunSplit_append (l : List Char) :
    (digitRunSplit l).1 ++ (digitRunSplit l).2 = l := by
  induction l with
  | nil => rfl
  | cons c cs ih =>
    by_cases h : c.isDigit <;> simp [digitRunSplit, h, ih]

theorem digitRunSplit_snd_length (l : List Char) :
    (digitRunSplit l).2.length ≤ l.length := by
  conv_rhs => rw [← digitRunSplit_append l]
  simp

/-- `parseInt` on a digit string (its numeric value). -/
def valDigits (cs : List Char) : Nat :=
  cs.foldl (fun a c => 10 * a + (c.toNat - '0'.toNat)) 0

/-- The lookbehind `(?<=PR:?\s*)`: the text before the current position
(given here reversed, most recent character first) ends with `PR`,
an optional colon, and any amount of whitespace. -/
def lookbehindPR (pref : List Char) : Bool :=
  match pref.dropWhile isSpaceJS with
  | ':' :: 'R' :: 'P' :: _ => true
  | 'R' :: 'P' :: _ => true
  | _ => false

/-- After a `(`, the alternative `\(#\d+\)` matches exactly when the rest
starts with `#`, at least one digit follows, and the digit run is closed
by `)`. -/
def parenGuard (cs : List Char) : Bool :=
  match cs with
  | '#' :: cs' =>
    !(digitRunSplit cs').1.isEmpty &&
      (digitRunSplit cs').2.head? == some ')'
  | _ => false

/-- One pass of the global scan of
`description.match(/#\d+|\(#\d+\)|(?<=PR:?\s*)\d+/g)` combined with
`parseInt(match.replace(/[^0-9]/g, ''))` on every match.
`pref` is the already-scanned text, reversed (the lookbehind examines it);
`rest` is the text still to scan.  At each position the three alternatives
are tried in order; a match consumes its text, anything else advances one
character.  `fuel` only forces structural recursion: every step consumes
at least one character, so `fuel = rest.length` never runs out. -/
def scanPRsAux : Nat → List Char → List Char → List Nat
  | _, _, [] => []
  | 0, _, _ => []
  | fuel + 1, pref, c :: cs =>
    if c = '#' then
      if (digitRunSplit cs).1.isEmpty then scanPRsAux fuel ('#' :: pref) cs
      else
        valDigits (digitRunSplit cs).1 ::
          scanPRsAux fuel ((digitRunSplit cs).1.reverse ++ '#' :: pref)
            (digitRunSplit cs).2
    else if c = '(' then
      if parenGuard cs then
        valDigits (digitRunSplit cs.tail).1 ::
          scanPRsAux fuel
            ((')' :: (digitRunSplit cs.tail).1.reverse) ++ '#' :: '(' :: pref)
            (digitRunSplit cs.tail).2.tail
      else scanPRsAux fuel ('(' :: pref) cs
    else if c.isDigit && lookbehindPR pref then
      valDigits (c :: (digitRunSplit cs).1) ::
        scanPRsAux fuel ((digitRunSplit cs).1.reverse ++ c :: pref)
          (digitRunSplit cs).2
    else scanPRsAux fuel (c :: pref) cs

/-- The full global scan starting from scanned text `pref` (reversed). -/
def scanPRs (pref rest : List Char) : List Nat :=
  scanPRsAux rest.length pref rest

/-- `extractPRNumbersFromDescription` (lines 164-171): an absent or empty
description yields the empty set; otherwise the global scan's numbers are
collected into a set. -/
def extractPRNumbersFromDescription (description : Option String) : Finset Nat :=
  match description with
  | none => ∅
  | some s => if s = "" then ∅ else (scanPRs [] s.toList).toFinset

/-! ### The candidate filter and orchestration of `fetchPullRequests`

A pull request record carries the fields the core reads: `id` (GitHub's
global identity, used by `pr.id !== latestReleasePR?.id`), `number`,
`title`, `body`, `merged_at` (absent for closed-but-unmerged PRs, modelled
as the timestamp of `new Date(merged_at)` when present), and the base
branch ref (`pr.base.ref`, absent when `pr.base` is missing). -/

structure PullRequest where
  id : Nat
  number : Nat
  title : String
  body : Option String
  merged_at : Option Int
  base : Option String
deriving DecidableEq

/-- A JavaScript primitive value, as far as `Set.prototype.has` is
concerned here: the extracted set holds numbers, the lookup key is a
string. -/
inductive JSVal where
  | num (n : Nat)
  | str (s : String)
deriving DecidableEq

/-- `Set.prototype.has` under SameValueZero equality on a set whose
elements are all numbers: a number key is a plain membership test, a
string key is equal to no number, hence never present. -/
def jsSetHas (s : Finset Nat) (v : JSVal) : Bool :=
  match v with
  | JSVal.num n => decide (n ∈ s)
  | JSVal.str _ => false

/-- `pr.base && pr.base.ref !== baseBranch`: a present base with a
different ref rejects the PR; an absent base skips the check. -/
def baseMismatch (pr : PullRequest) (baseBranch : String) : Bool :=
  match pr.base with
  | some ref => ref != baseBranch
  | none => false

/-- The time value of `new Date(x)` for `x` a valid timestamp string or
`null`: `new Date(null)` coerces `null` to `0` and yields the epoch. -/
def jsDateVal : Option Int → Int
  | some t => t
  | none => 0

/-- The per-PR predicate of the `data.filter` callback in
`fetchPullRequests` (lines 315-331). -/
def passesFilter (latestReleasePR : Option PullRequest)
    (includedPRNumbers : Finset Nat) (baseBranch : String)
    (pr : PullRequest) : Bool :=
  match pr.merged_at with
  | none => false
  | some t =>
    if baseMismatch pr baseBranch then false
    else
      let isAfterLastRelease :=
        match latestReleasePR with
        | some rel => decide (t ≥ jsDateVal rel.merged_at)
        | none => true
      isAfterLastRelease &&
        !(jsSetHas includedPRNumbers (JSVal.str ("#" ++ toString pr.number))) &&
        (match latestReleasePR with
         | some rel => pr.id != rel.id
         | none => true)

/-- `getLatestReleasePR` (lines 131-157): scan the closed-PR listing
(pages concatenated in iteration order) for the first title matching the
semver pattern; any error during the scan is caught, logged and turned
into `null`. -/
def getLatestReleasePR (markerScan : Except String (List PullRequest)) :
    Option PullRequest :=
  match markerScan with
  | Except.ok history => history.find? (fun pr => semverTest pr.title)
  | Except.error _ => none

/-- The successful outcome of `fetchPullRequests`: the accumulated
`pulls` array and the spinner's success message. -/
structure FetchResult where
  pulls : List PullRequest
  message : String
deriving DecidableEq

/-- The fatal outcome of `fetchPullRequests`' catch block: the message
printed via `console.error` and the `process.exit` code. -/
structure FatalExit where
  reportedMessage : String
  exitCode : Nat
deriving DecidableEq

deriving instance DecidableEq for Except

/-- `fetchPullRequests` (lines 296-347).  The two paginated traversals are
passed as the lists they yield (concatenation of pages, in iteration
order), or as the error they throw.  A marker-scan failure was already
caught inside `getLatestReleasePR`; a main-scan failure reaches the catch
block, which reports `Error: <message>` and exits with code 1. -/
def fetchPullRequests (markerScan mainScan : Except String (List PullRequest))
    (baseBranch : String) : Except FatalExit FetchResult :=
  let latestReleasePR := getLatestReleasePR markerScan
  let includedPRNumbers :=
    extractPRNumbersFromDescription (latestReleasePR.bind PullRequest.body)
  match mainScan with
  | Except.error msg => Except.error ⟨"Error: " ++ msg, 1⟩
  | Except.ok history =>
    let pulls := history.filter (passesFilter latestReleasePR includedPRNumbers baseBranch)
    let message :=
      match latestReleasePR with
      | some _ =>
        "Found " ++ toString pulls.length ++
          " new merged pull requests (excluding " ++
          toString includedPRNumbers.card ++ " PRs from last release)"
      | none => "Found " ++ toString pulls.length ++ " merged pull requests"
    Except.ok ⟨pulls, message⟩

/-! ### Basic facts about the filter -/

theorem jsSetHas_str (s : Finset Nat) (q : String) :
    jsSetHas s (JSVal.str q) = false := rfl

/-- Unfolding of `fetchPullRequests` on a successful main scan. -/
theorem fetchPullRequests_ok (markerScan : Except String (List PullRequest))
    (h : List PullRequest) (b : String) :
    fetchPullRequests markerScan (Except.ok h) b =
      Except.ok
        ⟨h.filter (passesFilter (getLatestReleasePR markerScan)
            (extractPRNumbersFromDescription
              ((getLatestReleasePR markerScan).bind PullRequest.body)) b),
         match getLatestReleasePR markerScan with
         | some _ =>
           "Found " ++ toString (h.filter (passesFilter (getLatestReleasePR markerScan)
               (extractPRNumbersFromDescription
                 ((getLatestReleasePR markerScan).bind PullRequest.body)) b)).length ++
             " new merged pull requests (excluding " ++
             toString (extractPRNumbersFromDescription
               ((getLatestReleasePR markerScan).bind PullRequest.body)).card ++
             " PRs from last release)"
         | none =>
           "Found " ++ toString (h.filter (passesFilter (getLatestReleasePR markerScan)
               (extractPRNumbersFromDescription
                 ((getLatestReleasePR markerScan).bind PullRequest.body)) b)).length ++
             " merged pull requests"⟩ := rfl

/-- Without a release marker the filter reduces to "merged and on the
right base branch". -/
theorem passesFilter_none (incl : Finset Nat) (b : String) (pr : PullRequest) :
    passesFilter none incl b pr = (pr.merged_at.isSome && !baseMismatch pr b) := by
  rcases hm : pr.merged_at with _ | t <;>
    simp [passesFilter, hm, jsSetHas_str]

/-- The filter never looks at the announced set: the membership probe uses
a string key on a set of numbers, so it is identically `false`. -/
theorem passesFilter_ignores_included (latest : Option PullRequest)
    (incl incl' : Finset Nat) (b : String) (pr : PullRequest) :
    passesFilter latest incl b pr = passesFilter latest incl' b pr := by
  rcases hm : pr.merged_at with _ | t <;>
    simp [passesFilter, hm, jsSetHas_str]

/-! ### Claim theorems -/

/-- C1: the claim says every merged ChangeRequest whose number is in the
AnnouncedIdentifierSet of the marker is excluded from the CandidateSet.
The code probes the number set with the string key `"#<number>"`, which is
never a member, so nothing is ever excluded as announced: with marker
PR 2 (merged at 0, body `"Includes #1"`) and PR 1 (merged at 5, base
`main`), the number 1 is announced, yet PR 1 is returned in the
CandidateSet, and the message even reports one exclusion. -/
theorem C1_announced_pr_not_excluded :
    1 ∈ extractPRNumbersFromDescription (some "Includes #1") ∧
    fetchPullRequests
        (Except.ok [⟨2, 2, "Release: Version 1.0.0", some "Includes #1", some 0, some "main"⟩])
        (Except.ok [⟨2, 2, "Release: Version 1.0.0", some "Includes #1", some 0, some "main"⟩,
                    ⟨1, 1, "Fix bug", none, some 5, some "main"⟩])
        "main" =
      Except.ok ⟨[⟨1, 1, "Fix bug", none, some 5, some "main"⟩],
        "Found 1 new merged pull requests (excluding 1 PRs from last release)"⟩ := by
  decide

/-- C3: a merged ChangeRequest on the right base branch, distinct from the
marker and not announced, whose merge timestamp equals the marker's merge
timestamp exactly, is retained in the CandidateSet: the lower time bound
is inclusive. -/
theorem C3_inclusive_lower_bound (mh h : List PullRequest) (b : String)
    (rel pr : PullRequest) (t : Int)
    (hrel : getLatestReleasePR (Except.ok mh) = some rel)
    (hmem : pr ∈ h)
    (ht : rel.merged_at = some t) (hpt : pr.merged_at = some t)
    (hbase : baseMismatch pr b = false)
    (hid : pr.id ≠ rel.id)
    (_hann : pr.number ∉ extractPRNumbersFromDescription rel.body) :
    ∃ r, fetchPullRequests (Except.ok mh) (Except.ok h) b = Except.ok r ∧
      pr ∈ r.pulls := by
  refine ⟨_, fetchPullRequests_ok _ h b, ?_⟩
  rw [hrel]
  refine List.mem_filter.mpr ⟨hmem, ?_⟩
  simp [passesFilter, hpt, hbase, ht, jsDateVal, jsSetHas_str, hid]

theorem C3_inclusive_lower_bound_witness :
    ∃ r, fetchPullRequests
        (Except.ok [⟨2, 2, "Release: Version 1.0.0", some "Includes #3", some 4, some "main"⟩])
        (Except.ok [⟨1, 1, "Fix bug", none, some 4, some "main"⟩]) "main" =
      Except.ok r ∧ (⟨1, 1, "Fix bug", none, some 4, some "main"⟩ : PullRequest) ∈ r.pulls :=
  C3_inclusive_lower_bound
    [⟨2, 2, "Release: Version 1.0.0", some "Includes #3", some 4, some "main"⟩]
    [⟨1, 1, "Fix bug", none, some 4, some "main"⟩] "main"
    ⟨2, 2, "Release: Version 1.0.0", some "Includes #3", some 4, some "main"⟩
    ⟨1, 1, "Fix bug", none, some 4, some "main"⟩ 4
    (by decide) (by decide) (by decide) (by decide) (by decide) (by decide)
    (by decide)

/-- C5: when a ReleaseMarker is found, no element of the CandidateSet has
the marker's identity, and in particular the marker itself is not in the
CandidateSet, even though it is a merged ChangeRequest. -/
theorem C5_marker_not_in_candidates (mh h : List PullRequest) (b : String)
    (rel : PullRequest) (r : FetchResult)
    (hrel : getLatestReleasePR (Except.ok mh) = some rel)
    (hr : fetchPullRequests (Except.ok mh) (Except.ok h) b = Except.ok r) :
    rel ∉ r.pulls ∧ ∀ pr ∈ r.pulls, pr.id ≠ rel.id := by
  rw [fetchPullRequests_ok] at hr
  have hpulls := congrArg FetchResult.pulls (Except.ok.inj hr)
  simp only at hpulls
  have hid : ∀ pr ∈ r.pulls, pr.id ≠ rel.id := by
    intro pr hpr
    rw [← hpulls] at hpr
    have hpass := (List.mem_filter.mp hpr).2
    rw [hrel] at hpass
    rcases hm : pr.merged_at with _ | t
    · simp [passesFilter, hm] at hpass
    · by_cases hb : baseMismatch pr b = true
      · simp [passesFilter, hm, hb] at hpass
      · simp only [Bool.not_eq_true] at hb
        simp only [passesFilter, hm, hb, Bool.if_false_left, Bool.and_eq_true,
          bne_iff_ne, ne_eq] at hpass
        exact hpass.2.2
  exact ⟨fun hc => hid rel hc rfl, hid⟩

theorem C5_marker_not_in_candidates_witness :
    (⟨2, 2, "Release: Version 1.0.0", none, some 0, some "main"⟩ : PullRequest) ∉
      (FetchResult.mk [⟨1, 1, "Fix bug", none, some 5, some "main"⟩]
        "Found 1 new merged pull requests (excluding 0 PRs from last release)").pulls ∧
    ∀ pr ∈ (FetchResult.mk [⟨1, 1, "Fix bug", none, some 5, some "main"⟩]
        "Found 1 new merged pull requests (excluding 0 PRs from last release)").pulls,
      pr.id ≠ (⟨2, 2, "Release: Version 1.0.0", none, some 0, some "main"⟩ : PullRequest).id :=
  C5_marker_not_in_candidates
    [⟨2, 2, "Release: Version 1.0.0", none, some 0, some "main"⟩]
    [⟨2, 2, "Release: Version 1.0.0", none, some 0, some "main"⟩,
     ⟨1, 1, "Fix bug", none, some 5, some "main"⟩] "main"
    ⟨2, 2, "Release: Version 1.0.0", none, some 0, some "main"⟩
    ⟨[⟨1, 1, "Fix bug", none, some 5, some "main"⟩],
      "Found 1 new merged pull requests (excluding 0 PRs from last release)"⟩
    (by decide) (by decide)

/-- C6: a ChangeRequest with no merge timestamp never appears in the
CandidateSet, whatever the marker scan, the announced set and the
base-branch constraint were. -/
theorem C6_unmerged_never_candidate
    (markerScan mainScan : Except String (List PullRequest)) (b : String)
    (r : FetchResult) (pr : PullRequest)
    (hr : fetchPullRequests markerScan mainScan b = Except.ok r)
    (hnone : pr.merged_at = none) :
    pr ∉ r.pulls := by
  intro hmem
  rcases mainScan with e | h
  · exact absurd hr (by simp [fetchPullRequests])
  · rw [fetchPullRequests_ok] at hr
    have hpulls := congrArg FetchResult.pulls (Except.ok.inj hr)
    simp only at hpulls
    rw [← hpulls] at hmem
    have hpass := (List.mem_filter.mp hmem).2
    simp [passesFilter, hnone] at hpass

theorem C6_unmerged_never_candidate_witness :
    (⟨1, 1, "Closed not merged", none, none, some "main"⟩ : PullRequest) ∉
      (FetchResult.mk [] "Found 0 merged pull requests").pulls :=
  C6_unmerged_never_candidate (Except.ok [])
    (Except.ok [⟨1, 1, "Closed not merged", none, none, some "main"⟩]) "main"
    ⟨[], "Found 0 merged pull requests"⟩
    ⟨1, 1, "Closed not merged", none, none, some "main"⟩
    (by decide) (by decide)

/-- C8: a failure of the marker-search scan is caught inside
`getLatestReleasePR`: the marker is reported absent and
`fetchPullRequests` proceeds exactly as with an empty (marker-free)
scan result. -/
theorem C8_marker_scan_failure_degrades (e : String)
    (mainScan : Except String (List PullRequest)) (b : String) :
    getLatestReleasePR (Except.error e) = none ∧
    fetchPullRequests (Except.error e) mainScan b =
      fetchPullRequests (Except.ok []) mainScan b := by
  refine ⟨rfl, ?_⟩
  rcases mainScan with msg | h <;> rfl

/-- C9: a failure of the main candidate scan is fatal: the underlying
message is reported (`Error: <message>`), the process exits with the
non-zero code 1, and no CandidateSet is produced. -/
theorem C9_main_scan_failure_fatal
    (markerScan : Except String (List PullRequest)) (b e : String) :
    fetchPullRequests markerScan (Except.error e) b =
      Except.error ⟨"Error: " ++ e, 1⟩ ∧
    (∀ r, fetchPullRequests markerScan (Except.error e) b ≠ Except.ok r) ∧
    (1 : Nat) ≠ 0 := by
  refine ⟨rfl, ?_, one_ne_zero⟩
  intro r hr
  simp [fetchPullRequests] at hr

/-- C10: the claim says a marker with no merge timestamp makes the
CandidateSet empty.  In fact `new Date(null)` is the epoch, not an invalid
date: with marker PR 2 (closed but unmerged, title `"1.0.0"`), PR 1
(merged at 5) still passes the time comparison and the CandidateSet is
`[PR 1]`, not empty. -/
theorem C10_counterexample :
    getLatestReleasePR (Except.ok [⟨2, 2, "1.0.0", none, none, none⟩]) =
      some ⟨2, 2, "1.0.0", none, none, none⟩ ∧
    (⟨2, 2, "1.0.0", none, none, none⟩ : PullRequest).merged_at = none ∧
    fetchPullRequests (Except.ok [⟨2, 2, "1.0.0", none, none, none⟩])
        (Except.ok [⟨2, 2, "1.0.0", none, none, none⟩,
                    ⟨1, 1, "Fix", none, some 5, some "main"⟩]) "main" =
      Except.ok ⟨[⟨1, 1, "Fix", none, some 5, some "main"⟩],
        "Found 1 new merged pull requests (excluding 0 PRs from last release)"⟩ := by
  decide

/-- C10 (amended): when the found ReleaseMarker has no merge timestamp,
`new Date(null)` evaluates to the epoch, so the CandidateSet consists of
every ChangeRequest with a merge timestamp at or after the epoch that
matches the base branch and is not the marker by identity — not the empty
set. -/
theorem C10_amended_epoch_lower_bound (mh h : List PullRequest) (b : String)
    (rel : PullRequest)
    (hrel : getLatestReleasePR (Except.ok mh) = some rel)
    (hnone : rel.merged_at = none) :
    ∃ r, fetchPullRequests (Except.ok mh) (Except.ok h) b = Except.ok r ∧
      r.pulls = h.filter (fun pr =>
        (match pr.merged_at with
         | some t => decide (t ≥ 0)
         | none => false) && !baseMismatch pr b && pr.id != rel.id) := by
  refine ⟨_, fetchPullRequests_ok _ h b, ?_⟩
  rw [hrel]
  simp only
  apply List.filter_congr
  intro pr _
  rcases hm : pr.merged_at with _ | t
  · simp [passesFilter, hm]
  · by_cases hb : baseMismatch pr b = true
    · simp [passesFilter, hm, hb]
    · simp only [Bool.not_eq_true] at hb
      simp only [passesFilter, hm, hb, hnone, jsDateVal, jsSetHas_str,
        Bool.if_false_left, Bool.not_false, Bool.and_true, Bool.not_eq_true]
      cases hd : decide (t ≥ 0) <;> cases hi : pr.id != rel.id <;> simp

theorem C10_amended_epoch_lower_bound_witness :
    ∃ r, fetchPullRequests (Except.ok [⟨2, 2, "1.0.0", none, none, none⟩])
        (Except.ok [⟨2, 2, "1.0.0", none, none, none⟩,
                    ⟨1, 1, "Fix", none, some 5, some "main"⟩]) "main" =
      Except.ok r ∧
      r.pulls = [⟨2, 2, "1.0.0", none, none, none⟩,
                 ⟨1, 1, "Fix", none, some 5, some "main"⟩].filter (fun pr =>
        (match pr.merged_at with
         | some t => decide (t ≥ 0)
         | none => false) && !baseMismatch pr "main" &&
          pr.id != (⟨2, 2, "1.0.0", none, none, none⟩ : PullRequest).id) :=
  C10_amended_epoch_lower_bound [⟨2, 2, "1.0.0", none, none, none⟩]
    [⟨2, 2, "1.0.0", none, none, none⟩, ⟨1, 1, "Fix", none, some 5, some "main"⟩]
    "main" ⟨2, 2, "1.0.0", none, none, none⟩ (by decide) (by decide)

/-- C7: without any semver-matching title in the marker scan, the
CandidateSet is exactly the merged, base-matching ChangeRequests and the
report is `Found <N> merged pull requests` with no exclusion count; with
a marker, the report is
`Found <N> new merged pull requests (excluding <M> PRs from last release)`
where `N` is the CandidateSet size and `M` the size of the extracted
AnnouncedIdentifierSet. -/
theorem C7_candidate_set_and_report (mh h : List PullRequest) (b : String) :
    ((∀ pr ∈ mh, semverTest pr.title = false) →
      fetchPullRequests (Except.ok mh) (Except.ok h) b =
        Except.ok
          ⟨h.filter (fun pr => pr.merged_at.isSome && !baseMismatch pr b),
           "Found " ++
             toString (h.filter (fun pr =>
               pr.merged_at.isSome && !baseMismatch pr b)).length ++
             " merged pull requests"⟩) ∧
    (∀ rel, getLatestReleasePR (Except.ok mh) = some rel →
      ∃ r, fetchPullRequests (Except.ok mh) (Except.ok h) b = Except.ok r ∧
        r.message = "Found " ++ toString r.pulls.length ++
          " new merged pull requests (excluding " ++
          toString (extractPRNumbersFromDescription rel.body).card ++
          " PRs from last release)") := by
  constructor
  · intro hno
    have hrel : getLatestReleasePR (Except.ok mh) = none := by
      simp only [getLatestReleasePR]
      exact List.find?_eq_none.mpr fun x hx => by simp [hno x hx]
    rw [fetchPullRequests_ok, hrel]
    simp only [Option.bind]
    congr 1
    have hfe : h.filter (passesFilter none
        (extractPRNumbersFromDescription none) b) =
        h.filter (fun pr => pr.merged_at.isSome && !baseMismatch pr b) :=
      List.filter_congr fun pr _ => passesFilter_none _ b pr
    rw [FetchResult.mk.injEq]
    exact ⟨hfe, by rw [hfe]⟩
  · intro rel hrel
    refine ⟨_, fetchPullRequests_ok _ h b, ?_⟩
    rw [hrel]
    rfl

theorem C7_candidate_set_and_report_witness :
    fetchPullRequests (Except.ok []) (Except.ok [⟨1, 1, "Fix", none, some 5, some "main"⟩]) "main" =
      Except.ok
        ⟨[⟨1, 1, "Fix", none, some 5, some "main"⟩].filter (fun pr =>
            pr.merged_at.isSome && !baseMismatch pr "main"),
         "Found " ++
           toString ([⟨1, 1, "Fix", none, some 5, some "main"⟩].filter (fun pr =>
             pr.merged_at.isSome && !baseMismatch pr "main")).length ++
           " merged pull requests"⟩ ∧
    (∃ r, fetchPullRequests (Except.ok [⟨2, 2, "Release: Version 1.0.0", some "Includes #1", some 0, some "main"⟩])
        (Except.ok [⟨1, 1, "Fix", none, some 5, some "main"⟩]) "main" = Except.ok r ∧
      r.message = "Found " ++ toString r.pulls.length ++
        " new merged pull requests (excluding " ++
        toString (extractPRNumbersFromDescription
          (⟨2, 2, "Release: Version 1.0.0", some "Includes #1", some 0, some "main"⟩ : PullRequest).body).card ++
        " PRs from last release)") :=
  ⟨(C7_candidate_set_and_report [] [⟨1, 1, "Fix", none, some 5, some "main"⟩] "main").1
      (by intro pr hpr; simp at hpr),
   (C7_candidate_set_and_report
      [⟨2, 2, "Release: Version 1.0.0", some "Includes #1", some 0, some "main"⟩]
      [⟨1, 1, "Fix", none, some 5, some "main"⟩] "main").2
      ⟨2, 2, "Release: Version 1.0.0", some "Includes #1", some 0, some "main"⟩
      (by decide)⟩

/-! ### C4: the Version-Tag Matcher -/

theorem triples_any_iff (s : List Char)
    (f : List Char × List Char × List Char → Bool) :
    (triples s).any f = true ↔
      ∃ p m q, s = p ++ m ++ q ∧ f (p, m, q) = true := by
  simp only [triples, List.any_eq_true, List.mem_flatMap, List.mem_map]
  constructor
  · rintro ⟨x, ⟨pq, hpq, mr, hmr, rfl⟩, hf⟩
    refine ⟨pq.1, mr.1, mr.2, ?_, hf⟩
    rw [List.append_assoc, ← (mem_splits_iff pq.2 mr.1 mr.2).mp hmr]
    exact (mem_splits_iff s pq.1 pq.2).mp hpq
  · rintro ⟨p, m, q, rfl, hf⟩
    exact ⟨(p, m, q),
      ⟨(p, m ++ q), (mem_splits_iff _ _ _).mpr (List.append_assoc p m q),
        (m, q), (mem_splits_iff _ _ _).mpr rfl, rfl⟩, hf⟩

/-- Modelled from the claim's wording, for comparison with the source
matcher: `t` contains a substring matching the version grammar
(MAJOR.MINOR.PATCH with no leading zeros, optional pre-release and build
suffixes), with no requirement on the characters adjacent to it. -/
def containsSemverSubstring (t : String) : Bool :=
  (triples t.toList).any fun tr => semverCore tr.2.1

/-- C4: the claim's characterization fails on its own example `"01.2.3"`:
that title does contain the substring `"1.2.3"`, which matches
MAJOR.MINOR.PATCH with no leading zeros, yet the matcher (which wraps the
pattern in `\b` assertions) rejects the title. -/
theorem C4_counterexample :
    containsSemverSubstring "01.2.3" = true ∧ semverTest "01.2.3" = false := by
  decide

/-- C4 (amended): the matcher accepts `t` iff `t` contains a substring
matching MAJOR.MINOR.PATCH (components without leading zeros, optional
hyphen-delimited pre-release and plus-delimited build-metadata suffixes)
that is delimited by word boundaries on both sides; in particular
`"Release: Version 1.2.3"` matches and `"01.2.3"` does not. -/
theorem C4_amended_boundary_matcher :
    (∀ t : String, semverTest t = true ↔
      ∃ p m q, t.toList = p ++ m ++ q ∧ semverCore m = true ∧
        boundaryOk p.getLast? m.head? = true ∧
        boundaryOk m.getLast? q.head? = true) ∧
    semverTest "Release: Version 1.2.3" = true ∧
    semverTest "01.2.3" = false := by
  refine ⟨?_, by decide, by decide⟩
  intro t
  rw [semverTest, semverTestL, triples_any_iff]
  constructor
  · rintro ⟨p, m, q, hs, hf⟩
    simp only [Bool.and_eq_true] at hf
    exact ⟨p, m, q, hs, hf.1.1, hf.1.2, hf.2⟩
  · rintro ⟨p, m, q, hs, h1, h2, h3⟩
    exact ⟨p, m, q, hs, by simp [h1, h2, h3]⟩

/-! ### C2: the Identifier Extractor

Declarative reading of the three citation notations, following the
claim's wording.  A cited number is the value of a maximal digit run that
is preceded by `#`, or wrapped in `(#...)`, or preceded by a `PR` label
with optional colon and whitespace. -/

/-- `p` ends with `PR`, an optional colon and any amount of whitespace
(the text the lookbehind `(?<=PR:?\s*)` accepts). -/
def endsWithPRLabel (p : List Char) : Prop :=
  ∃ p₀ c w, p = p₀ ++ ('P' :: 'R' :: c) ++ w ∧ (c = [] ∨ c = [':']) ∧
    ∀ x ∈ w, isSpaceJS x = true

/-- `n` is cited in `s` as `#N`: a maximal digit run right after a `#`. -/
def hashCited (s : List Char) (n : Nat) : Prop :=
  ∃ p r q, s = p ++ '#' :: (r ++ q) ∧ r ≠ [] ∧ (∀ x ∈ r, x.isDigit = true) ∧
    (∀ d, q.head? = some d → d.isDigit = false) ∧ n = valDigits r

/-- `n` is cited in `s` as `(#N)`. -/
def parenCited (s : List Char) (n : Nat) : Prop :=
  ∃ p r q, s = p ++ '(' :: '#' :: (r ++ ')' :: q) ∧ r ≠ [] ∧
    (∀ x ∈ r, x.isDigit = true) ∧ n = valDigits r

/-- `n` is cited in `s` as a bare number following a `PR` label. -/
def prLabelCited (s : List Char) (n : Nat) : Prop :=
  ∃ p r q, s = p ++ r ++ q ∧ r ≠ [] ∧ (∀ x ∈ r, x.isDigit = true) ∧
    (∀ d, q.head? = some d → d.isDigit = false) ∧ endsWithPRLabel p ∧
    n = valDigits r

/-- `n` is cited in `s` in one of the three recognized notations. -/
def citedNumber (s : List Char) (n : Nat) : Prop :=
  hashCited s n ∨ parenCited s n ∨ prLabelCited s n

/-- Mid-scan version of `prLabelCited`: the digit run starts inside
`rest`, while the label may reach back into the already-scanned text
`pref` (stored reversed). -/
def prCitedFrom (pref rest : List Char) (n : Nat) : Prop :=
  ∃ a r q, rest = a ++ (r ++ q) ∧ r ≠ [] ∧ (∀ x ∈ r, x.isDigit = true) ∧
    (∀ d, q.head? = some d → d.isDigit = false) ∧
    endsWithPRLabel (pref.reverse ++ a) ∧ n = valDigits r

/-- A digit is not whitespace and is none of the scanner's special
characters. -/
theorem digit_not_special (x : Char) (hx : x.isDigit = true) :
    isSpaceJS x = false ∧ x ≠ ':' ∧ x ≠ 'R' ∧ x ≠ '#' ∧ x ≠ '(' ∧
      x ≠ ')' ∧ x ≠ 'P' := by
  have hne : ∀ y : Char, y.isDigit = false → x ≠ y := by
    intro y hy hxy
    subst hxy
    rw [hx] at hy
    exact Bool.noConfusion hy
  refine ⟨?_, hne ':' (by decide), hne 'R' (by decide), hne '#' (by decide),
    hne '(' (by decide), hne ')' (by decide), hne 'P' (by decide)⟩
  cases hsp : isSpaceJS x with
  | false => rfl
  | true =>
    exfalso
    simp only [isSpaceJS, Bool.or_eq_true, decide_eq_true_eq] at hsp
    rcases hsp with ((((((h | h) | h) | h) | h) | h) | h) | h <;> subst h <;>
      exact absurd hx (by decide)

theorem digitRunSplit_fst_digits (l : List Char) :
    ∀ x ∈ (digitRunSplit l).1, x.isDigit = true := by
  induction l with
  | nil => simp [digitRunSplit]
  | cons c cs ih =>
    by_cases h : c.isDigit
    · simp only [digitRunSplit, h, if_true]
      intro x hx
      rcases List.mem_cons.mp hx with rfl | hx
      · exact h
      · exact ih x hx
    · simp [digitRunSplit, h]

theorem digitRunSplit_snd_head (l : List Char) :
    ∀ d, (digitRunSplit l).2.head? = some d → d.isDigit = false := by
  induction l with
  | nil => simp [digitRunSplit]
  | cons c cs ih =>
    by_cases h : c.isDigit
    · simpa only [digitRunSplit, h, if_true] using ih
    · intro d hd
      have hc : c.isDigit = false := by simpa using h
      simp only [digitRunSplit, hc, Bool.false_eq_true, if_false,
        List.head?_cons, Option.some.injEq] at hd
      exact hd ▸ hc

/-- `digitRunSplit` is determined by any maximal-run decomposition. -/
theorem digitRunSplit_of_decomp (r q : List Char)
    (hD : ∀ x ∈ r, x.isDigit = true)
    (hq : ∀ d, q.head? = some d → d.isDigit = false) :
    digitRunSplit (r ++ q) = (r, q) := by
  induction r with
  | nil =>
    cases q with
    | nil => rfl
    | cons d q' =>
      have hd : d.isDigit = false := hq d rfl
      simp [digitRunSplit, hd]
  | cons x r' ih =>
    have hx : x.isDigit = true := hD x (List.mem_cons_self _ _)
    have ih' := ih (fun y hy => hD y (List.mem_cons_of_mem _ hy))
    simp [digitRunSplit, hx, ih']

theorem digitRunSplit_fst_nil (l : List Char)
    (h : (digitRunSplit l).1 = []) : (digitRunSplit l).2 = l := by
  have := digitRunSplit_append l
  rw [h] at this
  simpa using this

/-- Helper: `dropWhile` skips a block of characters satisfying `p`. -/
theorem dropWhile_all_append (p : Char → Bool) (u l : List Char)
    (hu : ∀ x ∈ u, p x = true) :
    (u ++ l).dropWhile p = l.dropWhile p := by
  induction u with
  | nil => rfl
  | cons x u' ih =>
    have hx : p x = true := hu x (List.mem_cons_self _ _)
    simp only [List.cons_append, List.dropWhile_cons, hx, if_true]
    exact ih fun y hy => hu y (List.mem_cons_of_mem _ hy)

/-- The executable lookbehind agrees with the declarative label reading. -/
theorem lookbehindPR_iff (pref : List Char) :
    lookbehindPR pref = true ↔ endsWithPRLabel pref.reverse := by
  constructor
  · intro h
    have htw : ∀ x ∈ pref.takeWhile isSpaceJS, isSpaceJS x = true :=
      fun x hx => List.mem_takeWhile_imp hx
    rw [lookbehindPR] at h
    split at h
    · next rest heq =>
      refine ⟨rest.reverse, [':'], (pref.takeWhile isSpaceJS).reverse, ?_,
        Or.inr rfl, ?_⟩
      · have h2 : pref = pref.takeWhile isSpaceJS ++ (':' :: 'R' :: 'P' :: rest) := by
          rw [← heq]
          exact (List.takeWhile_append_dropWhile isSpaceJS pref).symm
        conv_lhs => rw [h2]
        simp
      · intro x hx
        exact htw x (List.mem_reverse.mp hx)
    · next rest heq =>
      refine ⟨rest.reverse, [], (pref.takeWhile isSpaceJS).reverse, ?_,
        Or.inl rfl, ?_⟩
      · have h2 : pref = pref.takeWhile isSpaceJS ++ ('R' :: 'P' :: rest) := by
          rw [← heq]
          exact (List.takeWhile_append_dropWhile isSpaceJS pref).symm
        conv_lhs => rw [h2]
        simp
      · intro x hx
        exact htw x (List.mem_reverse.mp hx)
    · exact absurd h (by simp)
  · rintro ⟨p₀, c, w, hp, hc, hw⟩
    have hwrev : ∀ x ∈ w.reverse, isSpaceJS x = true :=
      fun x hx => hw x (List.mem_reverse.mp hx)
    rcases hc with rfl | rfl
    · have hpref : pref = w.reverse ++ ('R' :: 'P' :: p₀.reverse) := by
        have := congrArg List.reverse hp
        simpa using this
      rw [lookbehindPR, hpref, dropWhile_all_append _ _ _ hwrev]
      have h2 : isSpaceJS 'R' = false := by decide
      simp [List.dropWhile_cons, h2]
    · have hpref : pref = w.reverse ++ (':' :: 'R' :: 'P' :: p₀.reverse) := by
        have := congrArg List.reverse hp
        simpa using this
      rw [lookbehindPR, hpref, dropWhile_all_append _ _ _ hwrev]
      have h2 : isSpaceJS ':' = false := by decide
      simp [List.dropWhile_cons, h2]

theorem hashCited_nil (n : Nat) : ¬ hashCited [] n := by
  rintro ⟨p, r, q, heq, -, -, -, -⟩
  exact absurd heq.symm (by simp)

/-- A character that cannot start a `#`-match shifts off the front of a
hash citation. -/
theorem hashCited_cons_iff (c : Char) (cs : List Char) (n : Nat)
    (hcond : ¬(c = '#' ∧ ∃ d, cs.head? = some d ∧ d.isDigit = true)) :
    hashCited (c :: cs) n ↔ hashCited cs n := by
  constructor
  · rintro ⟨p, r, q, heq, hr, hD, hq, hn⟩
    rcases p with _ | ⟨p0, p'⟩
    · exfalso
      simp only [List.nil_append, List.cons.injEq] at heq
      rcases r with _ | ⟨d, r'⟩
      · exact hr rfl
      · exact hcond ⟨heq.1, d, by simp [heq.2], hD d (List.mem_cons_self _ _)⟩
    · simp only [List.cons_append, List.cons.injEq] at heq
      exact ⟨p', r, q, heq.2, hr, hD, hq, hn⟩
  · rintro ⟨p, r, q, heq, hr, hD, hq, hn⟩
    exact ⟨c :: p, r, q, by simp [heq], hr, hD, hq, hn⟩

/-- A block of digits shifts off the front of a hash citation. -/
theorem hashCited_digits_prepend (l t : List Char) (n : Nat)
    (hl : ∀ x ∈ l, x.isDigit = true) :
    hashCited (l ++ t) n ↔ hashCited t n := by
  induction l with
  | nil => simp
  | cons x l' ih =>
    have hx := hl x (List.mem_cons_self _ _)
    rw [List.cons_append, hashCited_cons_iff]
    · exact ih fun y hy => hl y (List.mem_cons_of_mem _ hy)
    · rintro ⟨rfl, -⟩
      exact absurd hx (by decide)

/-- A maximal digit run directly after `#`: the head citation is the run
itself, the remaining hash citations live past the run. -/
theorem hashCited_hash_run (run t : List Char) (n : Nat)
    (hrun : run ≠ []) (hD : ∀ x ∈ run, x.isDigit = true)
    (hND : ∀ d, t.head? = some d → d.isDigit = false) :
    hashCited ('#' :: (run ++ t)) n ↔ (n = valDigits run ∨ hashCited t n) := by
  constructor
  · rintro ⟨p, r, q, heq, hr, hDr, hq, hn⟩
    rcases p with _ | ⟨p0, p'⟩
    · simp only [List.nil_append, List.cons.injEq, true_and] at heq
      have h1 := digitRunSplit_of_decomp run t hD hND
      have h2 := digitRunSplit_of_decomp r q hDr hq
      rw [heq] at h1
      have h3 := h1.symm.trans h2
      simp only [Prod.mk.injEq] at h3
      exact Or.inl (by rw [hn, h3.1])
    · simp only [List.cons_append, List.cons.injEq] at heq
      obtain ⟨-, heq2⟩ := heq
      rcases List.append_eq_append_iff.mp heq2 with ⟨a', ha1, ha2⟩ | ⟨c', hc1, hc2⟩
      · exact Or.inr ⟨a', r, q, ha2, hr, hDr, hq, hn⟩
      · rcases c' with _ | ⟨y, c''⟩
        · simp only [List.append_nil] at hc1
          rw [List.nil_append] at hc2
          exact Or.inr ⟨[], r, q, by simp [hc2], hr, hDr, hq, hn⟩
        · exfalso
          have hy : y.isDigit = true := hD y (by rw [hc1]; simp)
          simp only [List.cons_append, List.cons.injEq] at hc2
          exact absurd (hc2.1 ▸ hy) (by decide)
  · rintro (rfl | ⟨p, r, q, heq, hr, hDr, hq, hn⟩)
    · exact ⟨[], run, t, rfl, hrun, hD, hND, rfl⟩
    · exact ⟨'#' :: run ++ p, r, q, by simp [heq], hr, hDr, hq, hn⟩

/-- A `PR` label ends in `R`, a colon or whitespace. -/
theorem endsWithPRLabel_last (p : List Char) (h : endsWithPRLabel p) :
    ∃ p' x, p = p' ++ [x] ∧ (isSpaceJS x = true ∨ x = ':' ∨ x = 'R') := by
  obtain ⟨p₀, c, w, rfl, hc, hw⟩ := h
  rcases List.eq_nil_or_concat w with rfl | ⟨w', y, rfl⟩
  · rcases hc with rfl | rfl
    · exact ⟨p₀ ++ ['P'], 'R', by simp, Or.inr (Or.inr rfl)⟩
    · exact ⟨p₀ ++ ['P', 'R'], ':', by simp, Or.inr (Or.inl rfl)⟩
  · refine ⟨p₀ ++ ('P' :: 'R' :: c) ++ w', y, by simp, Or.inl ?_⟩
    exact hw y (by simp)

theorem not_endsWithPRLabel_concat (u : List Char) (x : Char)
    (h1 : isSpaceJS x = false) (h2 : x ≠ ':') (h3 : x ≠ 'R') :
    ¬ endsWithPRLabel (u ++ [x]) := by
  intro h
  obtain ⟨p', y, hpy, hy⟩ := endsWithPRLabel_last _ h
  have hxy : x = y := by
    have := congrArg List.getLast? hpy
    simpa using this
  subst hxy
  rcases hy with hy | hy | hy
  · exact absurd hy (by simp [h1])
  · exact h2 hy
  · exact h3 hy

/-- No `PR` label ends with a nonempty block of digits. -/
theorem not_endsWithPRLabel_append_digits (u l : List Char)
    (hne : l ≠ []) (hD : ∀ x ∈ l, x.isDigit = true) :
    ¬ endsWithPRLabel (u ++ l) := by
  rcases List.eq_nil_or_concat l with rfl | ⟨l', y, rfl⟩
  · exact absurd rfl hne
  · have hy : y.isDigit = true := hD y (by simp)
    obtain ⟨hs, hc, hr, -⟩ := digit_not_special y hy
    rw [List.concat_eq_append, ← List.append_assoc]
    exact not_endsWithPRLabel_concat _ _ hs hc hr

/-- No `PR` label ends with `#` followed by digits. -/
theorem not_endsWithPRLabel_append_hash_digits (u l : List Char)
    (hD : ∀ x ∈ l, x.isDigit = true) :
    ¬ endsWithPRLabel (u ++ '#' :: l) := by
  rcases List.eq_nil_or_concat l with rfl | ⟨l', y, rfl⟩
  · exact not_endsWithPRLabel_concat u '#' (by decide) (by decide) (by decide)
  · have hy : y.isDigit = true := hD y (by simp)
    obtain ⟨hs, hc, hr, -⟩ := digit_not_special y hy
    have hshape : u ++ '#' :: l'.concat y = (u ++ '#' :: l') ++ [y] := by simp
    rw [hshape]
    exact not_endsWithPRLabel_concat _ _ hs hc hr

theorem prCitedFrom_nil (pref : List Char) (n : Nat) :
    ¬ prCitedFrom pref [] n := by
  rintro ⟨a, r, q, heq, hr, -, -, -, -⟩
  rcases List.append_eq_nil.mp heq.symm with ⟨-, h2⟩
  exact hr (List.append_eq_nil.mp h2).1

/-- Shifting one unmatched character from `rest` to `pref`. -/
theorem prCitedFrom_cons (pref : List Char) (c : Char) (cs : List Char)
    (n : Nat) (hcond : c.isDigit = false ∨ lookbehindPR pref = false) :
    prCitedFrom pref (c :: cs) n ↔ prCitedFrom (c :: pref) cs n := by
  constructor
  · rintro ⟨a, r, q, heq, hr, hD, hq, hlab, hn⟩
    rcases a with _ | ⟨a0, a'⟩
    · exfalso
      rcases r with _ | ⟨d, r'⟩
      · exact hr rfl
      · simp only [List.nil_append, List.cons_append, List.cons.injEq] at heq
        have hd : d.isDigit = true := hD d (List.mem_cons_self _ _)
        rcases hcond with hcond | hcond
        · rw [heq.1] at hcond
          exact absurd hd (by simp [hcond])
        · rw [List.append_nil] at hlab
          exact absurd ((lookbehindPR_iff pref).mpr hlab) (by simp [hcond])
    · simp only [List.cons_append, List.cons.injEq] at heq
      refine ⟨a', r, q, heq.2, hr, hD, hq, ?_, hn⟩
      rw [List.reverse_cons, List.append_assoc]
      simpa using heq.1 ▸ hlab
  · rintro ⟨a, r, q, heq, hr, hD, hq, hlab, hn⟩
    refine ⟨c :: a, r, q, by simp [heq], hr, hD, hq, ?_, hn⟩
    simpa [List.append_assoc] using hlab

/-- Consuming `#` plus its maximal digit run: no label citation can start
inside the consumed text. -/
theorem prCitedFrom_hash_run (pref run t : List Char) (n : Nat)
    (_hrun : run ≠ []) (hD : ∀ x ∈ run, x.isDigit = true)
    (hND : ∀ d, t.head? = some d → d.isDigit = false) :
    prCitedFrom pref ('#' :: (run ++ t)) n ↔
      prCitedFrom (run.reverse ++ '#' :: pref) t n := by
  constructor
  · rintro ⟨a, r, q, heq, hr, hDr, hq, hlab, hn⟩
    rcases a with _ | ⟨a0, a'⟩
    · exfalso
      rcases r with _ | ⟨d, r'⟩
      · exact hr rfl
      · simp only [List.nil_append, List.cons_append, List.cons.injEq] at heq
        have hd := hDr d (List.mem_cons_self _ _)
        rw [← heq.1] at hd
        exact absurd hd (by decide)
    · simp only [List.cons_append, List.cons.injEq] at heq
      obtain ⟨ha0, heq2⟩ := heq
      rcases List.append_eq_append_iff.mp heq2 with ⟨k, hk1, hk2⟩ | ⟨c', hc1, hc2⟩
      · subst hk1
        refine ⟨k, r, q, hk2, hr, hDr, hq, ?_, hn⟩
        rw [← ha0] at hlab
        simpa [List.reverse_append] using hlab
      · rcases c' with _ | ⟨y, c''⟩
        · rcases r with _ | ⟨d, r'⟩
          · exact absurd rfl hr
          · exfalso
            rw [List.nil_append] at hc2
            have hd := hDr d (List.mem_cons_self _ _)
            have : t.head? = some d := by rw [← hc2]; rfl
            exact absurd hd (by simp [hND d this])
        · exfalso
          have ha'D : ∀ x ∈ a', x.isDigit = true := fun x hx =>
            hD x (by rw [hc1]; exact List.mem_append_left _ hx)
          rw [← ha0] at hlab
          exact not_endsWithPRLabel_append_hash_digits pref.reverse a' ha'D hlab
  · rintro ⟨k, r, q, ht, hr, hDr, hq, hlab, hn⟩
    refine ⟨'#' :: (run ++ k), r, q, by rw [ht]; simp, hr, hDr, hq, ?_, hn⟩
    simpa [List.reverse_append] using hlab

/-- Consuming a `(#...)` match: no label citation can start inside it. -/
theorem prCitedFrom_paren_run (pref run t' : List Char) (n : Nat)
    (_hrun : run ≠ []) (hD : ∀ x ∈ run, x.isDigit = true) :
    prCitedFrom pref ('(' :: '#' :: (run ++ ')' :: t')) n ↔
      prCitedFrom ((')' :: run.reverse) ++ '#' :: '(' :: pref) t' n := by
  constructor
  · rintro ⟨a, r, q, heq, hr, hDr, hq, hlab, hn⟩
    rcases a with _ | ⟨a0, a'⟩
    · exfalso
      rcases r with _ | ⟨d, r'⟩
      · exact hr rfl
      · simp only [List.nil_append, List.cons_append, List.cons.injEq] at heq
        have hd := hDr d (List.mem_cons_self _ _)
        rw [← heq.1] at hd
        exact absurd hd (by decide)
    · simp only [List.cons_append, List.cons.injEq] at heq
      obtain ⟨ha0, heq1⟩ := heq
      rcases a' with _ | ⟨a1, a''⟩
      · exfalso
        rcases r with _ | ⟨d, r'⟩
        · exact hr rfl
        · simp only [List.nil_append, List.cons_append, List.cons.injEq] at heq1
          have hd := hDr d (List.mem_cons_self _ _)
          rw [← heq1.1] at hd
          exact absurd hd (by decide)
      · simp only [List.cons_append, List.cons.injEq] at heq1
        obtain ⟨ha1, heq2⟩ := heq1
        rcases List.append_eq_append_iff.mp heq2 with ⟨k, hk1, hk2⟩ | ⟨c', hc1, hc2⟩
        · rcases k with _ | ⟨k0, k'⟩
          · exfalso
            rcases r with _ | ⟨d, r'⟩
            · exact hr rfl
            · simp only [List.nil_append, List.cons_append, List.cons.injEq] at hk2
              have hd := hDr d (List.mem_cons_self _ _)
              rw [← hk2.1] at hd
              exact absurd hd (by decide)
          · simp only [List.cons_append, List.cons.injEq] at hk2
            obtain ⟨hk0, hk2'⟩ := hk2
            subst hk1
            refine ⟨k', r, q, hk2', hr, hDr, hq, ?_, hn⟩
            rw [← ha0, ← ha1, ← hk0] at hlab
            simpa [List.reverse_append] using hlab
        · rcases c' with _ | ⟨y, c''⟩
          · exfalso
            rcases r with _ | ⟨d, r'⟩
            · exact hr rfl
            · rw [List.nil_append] at hc2
              simp only [List.cons_append, List.cons.injEq] at hc2
              have hd := hDr d (List.mem_cons_self _ _)
              rw [hc2.1] at hd
              exact absurd hd (by decide)
          · exfalso
            have ha''D : ∀ x ∈ a'', x.isDigit = true := fun x hx =>
              hD x (by rw [hc1]; exact List.mem_append_left _ hx)
            rw [← ha0, ← ha1] at hlab
            have hshape : pref.reverse ++ '(' :: '#' :: a'' =
                (pref.reverse ++ ['(']) ++ '#' :: a'' := by simp
            rw [hshape] at hlab
            exact not_endsWithPRLabel_append_hash_digits _ a'' ha''D hlab
  · rintro ⟨k, r, q, ht, hr, hDr, hq, hlab, hn⟩
    refine ⟨'(' :: '#' :: (run ++ ')' :: k), r, q, by rw [ht]; simp, hr, hDr,
      hq, ?_, hn⟩
    simpa [List.reverse_append] using hlab

/-- Consuming a lookbehind-matched digit run: its value is cited, and any
other label citation starts past the run. -/
theorem prCitedFrom_digit_run (pref : List Char) (c : Char)
    (run t : List Char) (n : Nat)
    (hc : c.isDigit = true) (hlb : lookbehindPR pref = true)
    (hD : ∀ x ∈ run, x.isDigit = true)
    (hND : ∀ d, t.head? = some d → d.isDigit = false) :
    prCitedFrom pref (c :: (run ++ t)) n ↔
      (n = valDigits (c :: run) ∨
        prCitedFrom (run.reverse ++ c :: pref) t n) := by
  have hcrunD : ∀ x ∈ c :: run, x.isDigit = true := by
    intro x hx
    rcases List.mem_cons.mp hx with rfl | hx
    · exact hc
    · exact hD x hx
  constructor
  · rintro ⟨a, r, q, heq, hr, hDr, hq, hlab, hn⟩
    rcases a with _ | ⟨a0, a'⟩
    · rw [List.nil_append] at heq
      have h1 := digitRunSplit_of_decomp (c :: run) t hcrunD hND
      rw [← List.cons_append] at heq
      rw [heq] at h1
      have h2 := digitRunSplit_of_decomp r q hDr hq
      have h3 := h1.symm.trans h2
      simp only [Prod.mk.injEq] at h3
      exact Or.inl (by rw [hn, h3.1])
    · simp only [List.cons_append, List.cons.injEq] at heq
      obtain ⟨ha0, heq2⟩ := heq
      rcases List.append_eq_append_iff.mp heq2 with ⟨k, hk1, hk2⟩ | ⟨c', hc1, hc2⟩
      · subst hk1
        refine Or.inr ⟨k, r, q, hk2, hr, hDr, hq, ?_, hn⟩
        rw [← ha0] at hlab
        simpa [List.reverse_append] using hlab
      · rcases c' with _ | ⟨y, c''⟩
        · rcases r with _ | ⟨d, r'⟩
          · exact absurd rfl hr
          · exfalso
            rw [List.nil_append] at hc2
            have hd := hDr d (List.mem_cons_self _ _)
            have : t.head? = some d := by rw [← hc2]; rfl
            exact absurd hd (by simp [hND d this])
        · exfalso
          have haD : ∀ x ∈ a0 :: a', x.isDigit = true := by
            intro x hx
            rcases List.mem_cons.mp hx with rfl | hx
            · rw [← ha0]; exact hc
            · exact hD x (by rw [hc1]; exact List.mem_append_left _ hx)
          have hshape : pref.reverse ++ a0 :: a' = pref.reverse ++ (a0 :: a') := rfl
          rw [hshape] at hlab
          exact not_endsWithPRLabel_append_digits pref.reverse (a0 :: a')
            (by simp) haD hlab
  · rintro (rfl | ⟨k, r, q, ht, hr, hDr, hq, hlab, hn⟩)
    · refine ⟨[], c :: run, t, by simp, by simp, hcrunD, hND, ?_, rfl⟩
      simpa using (lookbehindPR_iff pref).mp hlb
    · refine ⟨c :: (run ++ k), r, q, by rw [ht]; simp, hr, hDr, hq, ?_, hn⟩
      simpa [List.reverse_append] using hlab

theorem digitRunSplit_fst_empty_head (l : List Char)
    (h : (digitRunSplit l).1.isEmpty = true) :
    ∀ d, l.head? = some d → d.isDigit = false := by
  intro d hd
  cases l with
  | nil => cases hd
  | cons x xs =>
    simp only [List.head?_cons, Option.some.injEq] at hd
    by_cases hx : x.isDigit
    · exfalso
      simp [digitRunSplit, hx] at h
    · rw [← hd]
      simpa using hx

/-! Unfolding lemmas for the individual branches of `scanPRsAux`. -/

theorem scanPRsAux_hash_skip (fuel : Nat) (pref cs : List Char)
    (h : (digitRunSplit cs).1.isEmpty = true) :
    scanPRsAux (fuel + 1) pref ('#' :: cs) = scanPRsAux fuel ('#' :: pref) cs := by
  simp [scanPRsAux, h]

theorem scanPRsAux_hash_emit (fuel : Nat) (pref cs : List Char)
    (h : (digitRunSplit cs).1.isEmpty = false) :
    scanPRsAux (fuel + 1) pref ('#' :: cs) =
      valDigits (digitRunSplit cs).1 ::
        scanPRsAux fuel ((digitRunSplit cs).1.reverse ++ '#' :: pref)
          (digitRunSplit cs).2 := by
  simp [scanPRsAux, h]

theorem parenGuard_other (c2 : Char) (cs2 : List Char)
    (h : c2 = '#' → False) : parenGuard (c2 :: cs2) = false := by
  simp only [parenGuard]
  split
  · rename_i heq
    injection heq with h1 h2
    exact absurd h1 h
  · rfl

theorem scanPRsAux_paren_skip (fuel : Nat) (pref cs : List Char)
    (h : parenGuard cs = false) :
    scanPRsAux (fuel + 1) pref ('(' :: cs) =
      scanPRsAux fuel ('(' :: pref) cs := by
  simp [scanPRsAux, h]

theorem scanPRsAux_paren_emit (fuel : Nat) (pref cs' : List Char)
    (h : parenGuard ('#' :: cs') = true) :
    scanPRsAux (fuel + 1) pref ('(' :: '#' :: cs') =
      valDigits (digitRunSplit cs').1 ::
        scanPRsAux fuel
          ((')' :: (digitRunSplit cs').1.reverse) ++ '#' :: '(' :: pref)
          (digitRunSplit cs').2.tail := by
  simp [scanPRsAux, h]

theorem scanPRsAux_digit_emit (fuel : Nat) (pref : List Char) (c : Char)
    (cs : List Char) (h1 : c = '#' → False) (h2 : c = '(' → False)
    (h3 : (c.isDigit && lookbehindPR pref) = true) :
    scanPRsAux (fuel + 1) pref (c :: cs) =
      valDigits (c :: (digitRunSplit cs).1) ::
        scanPRsAux fuel ((digitRunSplit cs).1.reverse ++ c :: pref)
          (digitRunSplit cs).2 := by
  simp only [scanPRsAux]
  rw [if_neg h1, if_neg h2, if_pos h3]

theorem scanPRsAux_skip (fuel : Nat) (pref : List Char) (c : Char)
    (cs : List Char) (h1 : c = '#' → False) (h2 : c = '(' → False)
    (h3 : (c.isDigit && lookbehindPR pref) = false) :
    scanPRsAux (fuel + 1) pref (c :: cs) = scanPRsAux fuel (c :: pref) cs := by
  simp only [scanPRsAux]
  rw [if_neg h1, if_neg h2, if_neg (by simp [h3])]

/-- The global scan emits exactly the numbers cited after the scanned
prefix: as `#N` (which subsumes `(#N)`) inside the remaining text, or as a
bare run whose `PR` label may reach back into the scanned prefix. -/
theorem scanPRsAux_mem (fuel : Nat) :
    ∀ rest pref n, rest.length ≤ fuel →
      (n ∈ scanPRsAux fuel pref rest ↔
        hashCited rest n ∨ prCitedFrom pref rest n) := by
  induction fuel with
  | zero =>
    intro rest pref n hlen
    have hnil : rest = [] := List.length_eq_zero.mp (Nat.le_zero.mp hlen)
    subst hnil
    constructor
    · intro h
      simp [scanPRsAux] at h
    · rintro (h | h)
      · exact absurd h (hashCited_nil n)
      · exact absurd h (prCitedFrom_nil pref n)
  | succ fuel ih =>
    intro rest pref n hlen
    rcases rest with _ | ⟨c, cs⟩
    · constructor
      · intro h
        simp [scanPRsAux] at h
      · rintro (h | h)
        · exact absurd h (hashCited_nil n)
        · exact absurd h (prCitedFrom_nil pref n)
    · simp only [List.length_cons] at hlen
      have hlen1 : cs.length ≤ fuel := by omega
      by_cases hc1 : c = '#'
      · subst hc1
        by_cases hrun : (digitRunSplit cs).1.isEmpty
        · have hhead := digitRunSplit_fst_empty_head cs hrun
          rw [scanPRsAux_hash_skip fuel pref cs hrun,
            ih cs ('#' :: pref) n hlen1,
            hashCited_cons_iff '#' cs n (fun hk => by
              obtain ⟨-, d, hd, hdig⟩ := hk
              exact absurd hdig (by simp [hhead d hd])),
            prCitedFrom_cons pref '#' cs n (Or.inl (by decide))]
        · have hrun' : (digitRunSplit cs).1 ≠ [] := by simpa using hrun
          have hlen2 : (digitRunSplit cs).2.length ≤ fuel :=
            le_trans (digitRunSplit_snd_length cs) hlen1
          have hcs := digitRunSplit_append cs
          rw [scanPRsAux_hash_emit fuel pref cs (by simpa using hrun),
            List.mem_cons, ih _ _ n hlen2]
          conv_rhs => rw [← hcs]
          rw [hashCited_hash_run _ _ n hrun' (digitRunSplit_fst_digits cs)
              (digitRunSplit_snd_head cs),
            prCitedFrom_hash_run pref _ _ n hrun' (digitRunSplit_fst_digits cs)
              (digitRunSplit_snd_head cs)]
          tauto
      · by_cases hc2 : c = '('
        · subst hc2
          by_cases hpg : parenGuard cs = true
          · rcases cs with _ | ⟨c2, cs2⟩
            · simp [parenGuard] at hpg
            · by_cases hc2' : c2 = '#'
              · subst hc2'
                have hg : (digitRunSplit cs2).1 ≠ [] ∧
                    (digitRunSplit cs2).2.head? = some ')' := by
                  simpa [parenGuard] using hpg
                obtain ⟨hrun', hhead⟩ := hg
                have ht' : (digitRunSplit cs2).2 =
                    ')' :: (digitRunSplit cs2).2.tail := by
                  rcases h2 : (digitRunSplit cs2).2 with _ | ⟨x, xs⟩
                  · rw [h2] at hhead
                    cases hhead
                  · rw [h2] at hhead
                    simp only [List.head?_cons, Option.some.injEq] at hhead
                    simp [hhead]
                have hlen3 : (digitRunSplit cs2).2.tail.length ≤ fuel := by
                  have ha := digitRunSplit_snd_length cs2
                  have hb : (digitRunSplit cs2).2.tail.length =
                      (digitRunSplit cs2).2.length - 1 := List.length_tail _
                  simp only [List.length_cons] at hlen
                  omega
                have hcs2 : (digitRunSplit cs2).1 ++
                    (')' :: (digitRunSplit cs2).2.tail) = cs2 := by
                  conv_rhs => rw [← digitRunSplit_append cs2]
                  rw [← ht']
                rw [scanPRsAux_paren_emit fuel pref cs2 hpg, List.mem_cons,
                  ih _ _ n hlen3]
                conv_rhs => rw [← hcs2]
                rw [hashCited_cons_iff '(' _ n (fun hk => absurd hk.1 (by decide)),
                  hashCited_hash_run _ _ n hrun' (digitRunSplit_fst_digits cs2)
                    (fun d hd => by
                      simp only [List.head?_cons, Option.some.injEq] at hd
                      rw [← hd]
                      decide),
                  hashCited_cons_iff ')' _ n (fun hk => absurd hk.1 (by decide)),
                  prCitedFrom_paren_run pref _ _ n hrun'
                    (digitRunSplit_fst_digits cs2)]
                tauto
              · exact absurd hpg
                  (by simp [parenGuard_other c2 cs2 (fun h => hc2' h)])
          · have hpg' : parenGuard cs = false := by simpa using hpg
            rw [scanPRsAux_paren_skip fuel pref cs hpg',
              ih cs ('(' :: pref) n hlen1,
              hashCited_cons_iff '(' cs n (fun hk => absurd hk.1 (by decide)),
              prCitedFrom_cons pref '(' cs n (Or.inl (by decide))]
        · by_cases hc3 : (c.isDigit && lookbehindPR pref) = true
          · have hc3' := hc3
            simp only [Bool.and_eq_true] at hc3'
            obtain ⟨hcd, hlb⟩ := hc3'
            have hlen2 : (digitRunSplit cs).2.length ≤ fuel :=
              le_trans (digitRunSplit_snd_length cs) hlen1
            have hcs := digitRunSplit_append cs
            have hcrunD : ∀ x ∈ c :: (digitRunSplit cs).1, x.isDigit = true := by
              intro x hx
              rcases List.mem_cons.mp hx with rfl | hx
              · exact hcd
              · exact digitRunSplit_fst_digits cs x hx
            rw [scanPRsAux_digit_emit fuel pref c cs (fun h => hc1 h)
                (fun h => hc2 h) hc3,
              List.mem_cons, ih _ _ n hlen2]
            conv_rhs => rw [← hcs]
            have hpre : hashCited
                (c :: ((digitRunSplit cs).1 ++ (digitRunSplit cs).2)) n ↔
                hashCited (digitRunSplit cs).2 n := by
              rw [← List.cons_append]
              exact hashCited_digits_prepend _ _ n hcrunD
            rw [hpre,
              prCitedFrom_digit_run pref c _ _ n hcd hlb
                (digitRunSplit_fst_digits cs) (digitRunSplit_snd_head cs)]
            tauto
          · have hc3' : (c.isDigit && lookbehindPR pref) = false := by
              simpa using hc3
            have hcond : c.isDigit = false ∨ lookbehindPR pref = false := by
              by_cases hcd : c.isDigit
              · right
                by_contra hlb
                rw [Bool.not_eq_false] at hlb
                rw [hcd, hlb] at hc3'
                cases hc3'
              · left
                simpa using hcd
            rw [scanPRsAux_skip fuel pref c cs (fun h => hc1 h)
                (fun h => hc2 h) hc3',
              ih cs (c :: pref) n hlen1,
              hashCited_cons_iff c cs n (fun hk => hc1 hk.1),
              prCitedFrom_cons pref c cs n hcond]

/-- Every `(#N)` citation contains a `#N` citation of the same number. -/
theorem parenCited_imp_hashCited (s : List Char) (n : Nat)
    (h : parenCited s n) : hashCited s n := by
  obtain ⟨p, r, q, heq, hr, hD, hn⟩ := h
  refine ⟨p ++ ['('], r, ')' :: q, by simp [heq], hr, hD, ?_, hn⟩
  intro d hd
  simp only [List.head?_cons, Option.some.injEq] at hd
  rw [← hd]
  decide

theorem prCitedFrom_nil_pref (s : List Char) (n : Nat) :
    prCitedFrom [] s n ↔ prLabelCited s n := by
  constructor
  · rintro ⟨a, r, q, heq, hr, hD, hq, hlab, hn⟩
    exact ⟨a, r, q, by simp [heq], hr, hD, hq, by simpa using hlab, hn⟩
  · rintro ⟨p, r, q, heq, hr, hD, hq, hlab, hn⟩
    exact ⟨p, r, q, by simp [heq], hr, hD, hq, by simpa using hlab, hn⟩

theorem citedNumber_iff (s : List Char) (n : Nat) :
    citedNumber s n ↔ (hashCited s n ∨ prLabelCited s n) := by
  constructor
  · rintro (h | h | h)
    · exact Or.inl h
    · exact Or.inl (parenCited_imp_hashCited s n h)
    · exact Or.inr h
  · rintro (h | h)
    · exact Or.inl h
    · exact Or.inr (Or.inr h)

/-- The top-level scan finds exactly the cited numbers. -/
theorem scanPRs_mem (s : List Char) (n : Nat) :
    n ∈ scanPRs [] s ↔ citedNumber s n := by
  rw [scanPRs, scanPRsAux_mem s.length s [] n le_rfl, citedNumber_iff,
    prCitedFrom_nil_pref]

theorem citedNumber_empty (n : Nat) : ¬ citedNumber [] n := by
  rintro (h | h | h)
  · exact hashCited_nil n h
  · obtain ⟨p, r, q, heq, -, -, -⟩ := h
    exact absurd heq.symm (by simp)
  · exact prCitedFrom_nil [] n ((prCitedFrom_nil_pref [] n).mpr h)

/-- Case-insensitive variant of the label reading, as the claim words it. -/
def endsWithPRLabelCI (p : List Char) : Prop :=
  ∃ p₀ a b c w, p = p₀ ++ (a :: b :: c) ++ w ∧ (a = 'P' ∨ a = 'p') ∧
    (b = 'R' ∨ b = 'r') ∧ (c = [] ∨ c = [':']) ∧ ∀ x ∈ w, isSpaceJS x = true

/-- Modelled from the claim's wording: a bare number following a
case-insensitive `PR` label. -/
def prLabelCitedCI (s : List Char) (n : Nat) : Prop :=
  ∃ p r q, s = p ++ r ++ q ∧ r ≠ [] ∧ (∀ x ∈ r, x.isDigit = true) ∧
    (∀ d, q.head? = some d → d.isDigit = false) ∧ endsWithPRLabelCI p ∧
    n = valDigits r

/-- Modelled from the claim's wording: cited via `#N`, `(#N)` or a
case-insensitive `PR` label. -/
def citedNumberCI (s : List Char) (n : Nat) : Prop :=
  hashCited s n ∨ parenCited s n ∨ prLabelCitedCI s n

/-- C2: the claim fails on the description `"pr: 56"`: the integer 56 is
cited via a case-insensitive `PR` label, but the source regex has no `i`
flag, so the extractor returns the empty set. -/
theorem C2_counterexample :
    citedNumberCI (String.toList "pr: 56") 56 ∧
    56 ∉ extractPRNumbersFromDescription (some "pr: 56") := by
  constructor
  · refine Or.inr (Or.inr ⟨['p', 'r', ':', ' '], ['5', '6'], [],
      ?_, ?_, ?_, ?_, ?_, ?_⟩)
    · decide
    · decide
    · decide
    · intro d hd
      simp at hd
    · exact ⟨[], 'p', 'r', [':'], [' '], by decide, Or.inr rfl, Or.inr rfl,
        Or.inr rfl, by decide⟩
    · decide
  · decide

/-- C2 (amended): for every description (absent and empty treated as the
empty result), the extractor returns exactly the set of integers cited via
`#N`, `(#N)`, or a bare integer immediately following the case-sensitive
label `PR` with optional colon and whitespace, no bare unlabeled numbers,
with duplicates collapsed into one set element. -/
theorem C2_amended_extractor_exact :
    ∀ (d : Option String) (n : Nat),
      n ∈ extractPRNumbersFromDescription d ↔
        ∃ s, d = some s ∧ citedNumber s.toList n := by
  intro d n
  rcases d with _ | s
  · simp [extractPRNumbersFromDescription]
  · constructor
    · intro h
      refine ⟨s, rfl, ?_⟩
      by_cases hs : s = ""
      · simp [extractPRNumbersFromDescription, hs] at h
      · rw [extractPRNumbersFromDescription, if_neg hs] at h
        exact (scanPRs_mem s.toList n).mp (List.mem_toFinset.mp h)
    · rintro ⟨s', hs', hcited⟩
      injection hs' with hss
      subst hss
      by_cases hs : s = ""
      · subst hs
        exact absurd hcited (citedNumber_empty n)
      · rw [extractPRNumbersFromDescription, if_neg hs]
        exact List.mem_toFinset.mpr ((scanPRs_mem s.toList n).mpr hcited)

end CreateAppRelease
